import Mathlib

/-!
Verification of the PII normalizer library: shallow embedding of
src/Normalizer.ts, src/hash.ts and src/types.ts, followed by theorems
settling the frozen claims about the specification.

Strings are modelled as `List Char`; JavaScript `null` results are
modelled with `Option`; the `Required<NormalizerOptions>` record is a
structure; the batch `normalize` method is a pure function from the
options and the raw record to the output record (the per-field `await`
points are irrelevant to the values computed, every call site awaits its
digest before use).
-/

namespace PII

/-- Strings of the embedded program. -/
abbrev Str := List Char

/-- Whitespace, as JavaScript `trim` and the regex class `\s` see it for
the ASCII range (space, tab, line feed, vertical tab, form feed,
carriage return). -/
def isWsChar (c : Char) : Bool :=
  c == ' ' || c == '\t' || c == '\n' || c == '\x0b' || c == '\x0c' || c == '\r'

/-- `String.prototype.toLowerCase`, restricted to its ASCII action:
each character is lowered with `Char.toLower`. -/
def lowerStr (s : Str) : Str := s.map Char.toLower

/-- `String.prototype.trim`: drop whitespace from both ends. -/
def trim (s : Str) : Str :=
  (((s.dropWhile isWsChar).reverse.dropWhile isWsChar)).reverse

/-- `.replace(/\s+/g, ' ')`: every maximal run of whitespace becomes one
space. -/
def collapse : Str → Str
  | [] => []
  | c :: cs =>
    if isWsChar c then ' ' :: collapse (cs.dropWhile isWsChar)
    else c :: collapse cs
termination_by l => l.length
decreasing_by
  · simp only [List.length_cons]
    exact Nat.lt_succ_of_le (List.dropWhile_sublist isWsChar (l := cs)).length_le
  · simp

/-- `.replace(/\s+/g, '')`: remove every whitespace character. -/
def removeAllWs (s : Str) : Str := s.filter (fun c => !isWsChar c)

/-!
## src/hash.ts

`sha256` calls `crypto.subtle.digest('SHA-256', data)` on the
`TextEncoder` UTF-8 encoding of the input and renders the digest bytes
as two lowercase hex characters each, joined.  The Web Crypto digest and
the encoder are platform primitives, not code of this repository, so the
SHA-256 compression itself and the UTF-8 encoder are modelled below from
the specification (FIPS 180-4 / the spec sentence "computes a
cryptographic SHA-256 hash of the UTF-8 encoding of `input`, renders it
as 64 lowercase hexadecimal characters").  Machine words are `Nat` taken
modulo `2 ^ 32` explicitly.
-/

/-- Modelled from the spec: the UTF-8 bytes of one Unicode scalar value,
as `TextEncoder` produces for it (the encoder itself is a platform
primitive, not code of this repository). -/
def utf8Char (c : Char) : List Nat :=
  let n := c.toNat
  if n < 128 then [n]
  else if n < 2048 then [192 + n / 64, 128 + n % 64]
  else if n < 65536 then [224 + n / 4096, 128 + (n / 64) % 64, 128 + n % 64]
  else [240 + n / 262144, 128 + (n / 4096) % 64, 128 + (n / 64) % 64, 128 + n % 64]

/-- Modelled from the spec: the UTF-8 encoding of a string. -/
def utf8Encode (s : Str) : List Nat := (s.map utf8Char).flatten

/-- `2 ^ 32`, the word modulus of SHA-256. -/
def M32 : Nat := 4294967296

/-- Rotate a 32-bit word right by `k` (arithmetic formulation). -/
def rotr (k x : Nat) : Nat := (x / 2 ^ k + x % 2 ^ k * 2 ^ (32 - k)) % M32

/-- SHA-256 `Ch(x,y,z)`. -/
def shaCh (x y z : Nat) : Nat := (x &&& y) ^^^ ((x ^^^ 4294967295) &&& z)

/-- SHA-256 `Maj(x,y,z)`. -/
def shaMaj (x y z : Nat) : Nat := (x &&& y) ^^^ (x &&& z) ^^^ (y &&& z)

/-- SHA-256 `Σ0`. -/
def bigSigma0 (x : Nat) : Nat := rotr 2 x ^^^ rotr 13 x ^^^ rotr 22 x

/-- SHA-256 `Σ1`. -/
def bigSigma1 (x : Nat) : Nat := rotr 6 x ^^^ rotr 11 x ^^^ rotr 25 x

/-- SHA-256 `σ0`. -/
def smallSigma0 (x : Nat) : Nat := rotr 7 x ^^^ rotr 18 x ^^^ x / 2 ^ 3

/-- SHA-256 `σ1`. -/
def smallSigma1 (x : Nat) : Nat := rotr 17 x ^^^ rotr 19 x ^^^ x / 2 ^ 10

/-- The 64 SHA-256 round constants of FIPS 180-4, in decimal. -/
def shaK : List Nat :=
  [1116352408, 1899447441, 3049323471, 3921009573, 961987163, 1508970993,
   2453635748, 2870763221, 3624381080, 310598401, 607225278, 1426881987,
   1925078388, 2162078206, 2614888103, 3248222580, 3835390401, 4022224774,
   264347078, 604807628, 770255983, 1249150122, 1555081692, 1996064986,
   2554220882, 2821834349, 2952996808, 3210313671, 3336571891, 3584528711,
   113926993, 338241895, 666307205, 773529912, 1294757372, 1396182291,
   1695183700, 1986661051, 2177026350, 2456956037, 2730485921, 2820302411,
   3259730800, 3345764771, 3516065817, 3600352804, 4094571909, 275423344,
   430227734, 506948616, 659060556, 883997877, 958139571, 1322822218,
   1537002063, 1747873779, 1955562222, 2024104815, 2227730452, 2361852424,
   2428436474, 2756734187, 3204031479, 3329325298]

/-- The eight working words of the SHA-256 state. -/
structure Sha2State where
  a : Nat
  b : Nat
  c : Nat
  d : Nat
  e : Nat
  f : Nat
  g : Nat
  h : Nat

/-- The SHA-256 initial hash value of FIPS 180-4, in decimal. -/
def shaH0 : Sha2State :=
  ⟨1779033703, 3144134277, 1013904242, 2773480762,
   1359893119, 2600822924, 528734635, 1541459225⟩

/-- One extension step of the message schedule, on the reversed schedule
list (head is the newest word). -/
def wStep (wr : List Nat) : List Nat :=
  ((smallSigma1 (wr.getD 1 0) + wr.getD 6 0 + smallSigma0 (wr.getD 14 0)
      + wr.getD 15 0) % M32) :: wr

/-- The 64-word message schedule of one 16-word block. -/
def scheduleOf (block : List Nat) : List Nat := (wStep^[48] block.reverse).reverse

/-- One SHA-256 round, consuming a pair of round constant and schedule
word. -/
def roundStep (st : Sha2State) (kw : Nat × Nat) : Sha2State :=
  let t1 := (st.h + bigSigma1 st.e + shaCh st.e st.f st.g + kw.1 + kw.2) % M32
  let t2 := (bigSigma0 st.a + shaMaj st.a st.b st.c) % M32
  ⟨(t1 + t2) % M32, st.a, st.b, st.c, (st.d + t1) % M32, st.e, st.f, st.g⟩

/-- Compress one 16-word block into the chaining state. -/
def compress (H : Sha2State) (block : List Nat) : Sha2State :=
  let st := (shaK.zip (scheduleOf block)).foldl roundStep H
  ⟨(H.a + st.a) % M32, (H.b + st.b) % M32, (H.c + st.c) % M32,
   (H.d + st.d) % M32, (H.e + st.e) % M32, (H.f + st.f) % M32,
   (H.g + st.g) % M32, (H.h + st.h) % M32⟩

/-- The big-endian 8-byte rendering of the message bit length. -/
def lenBE8 (n : Nat) : List Nat :=
  [n / 2 ^ 56 % 256, n / 2 ^ 48 % 256, n / 2 ^ 40 % 256, n / 2 ^ 32 % 256,
   n / 2 ^ 24 % 256, n / 2 ^ 16 % 256, n / 2 ^ 8 % 256, n % 256]

/-- SHA-256 message padding: append `0x80`, zeros to 56 mod 64, then the
bit length. -/
def padBytes (bytes : List Nat) : List Nat :=
  bytes ++ 128 :: (List.replicate ((119 - bytes.length % 64) % 64) 0
    ++ lenBE8 (8 * bytes.length))

/-- Split the padded message into 64-byte chunks. -/
def chunk64 : List Nat → List (List Nat)
  | [] => []
  | c :: cs => ((c :: cs).take 64) :: chunk64 ((c :: cs).drop 64)
termination_by l => l.length
decreasing_by
  simp only [List.length_drop, List.length_cons]
  omega

/-- Big-endian 32-bit words of a chunk of bytes. -/
def words4 : List Nat → List Nat
  | b0 :: b1 :: b2 :: b3 :: rest =>
    (b0 * 2 ^ 24 + b1 * 2 ^ 16 + b2 * 2 ^ 8 + b3) :: words4 rest
  | _ => []

/-- Big-endian bytes of one 32-bit word. -/
def wordBE (w : Nat) : List Nat :=
  [w / 2 ^ 24 % 256, w / 2 ^ 16 % 256, w / 2 ^ 8 % 256, w % 256]

/-- Modelled from the spec: the SHA-256 digest of a byte sequence, as 32
bytes (the `crypto.subtle.digest` platform primitive called by
src/hash.ts, per FIPS 180-4). -/
def sha256Digest (bytes : List Nat) : List Nat :=
  let fin := ((chunk64 (padBytes bytes)).map words4).foldl compress shaH0
  wordBE fin.a ++ wordBE fin.b ++ wordBE fin.c ++ wordBE fin.d
    ++ wordBE fin.e ++ wordBE fin.f ++ wordBE fin.g ++ wordBE fin.h

/-- One lowercase hexadecimal digit, as `Number.prototype.toString(16)`
writes it. -/
def hexDigit (n : Nat) : Char :=
  if n < 10 then Char.ofNat (48 + n) else Char.ofNat (87 + n)

/-- `b.toString(16)`: the lowercase hexadecimal digits of a value,
without leading zeros. -/
def toHex (n : Nat) : List Char :=
  if n < 16 then [hexDigit n] else toHex (n / 16) ++ [hexDigit (n % 16)]
termination_by n
decreasing_by
  exact Nat.div_lt_self (by omega) (by omega)

/-- `.padStart(2, '0')`. -/
def padStart2 (l : List Char) : List Char :=
  if l.length < 2 then List.replicate (2 - l.length) '0' ++ l else l

/-- One digest byte as two hex characters: `b.toString(16).padStart(2, '0')`
(src/hash.ts line 32). -/
def hexByte (b : Nat) : List Char := padStart2 (toHex b)

/-- src/hash.ts `sha256`: digest the UTF-8 encoding and join the
per-byte hex renderings. -/
def sha256 (s : Str) : Str := ((sha256Digest (utf8Encode s)).map hexByte).flatten

/-- One character of the class `[a-f0-9]`. -/
def isHexLowerChar (c : Char) : Bool :=
  ('a' ≤ c && c ≤ 'f') || ('0' ≤ c && c ≤ '9')

/-- src/hash.ts `isSha256`: the regular expression `^[a-f0-9]{64}$`. -/
def isSha256 (s : Str) : Bool :=
  decide (s.length = 64) && s.all isHexLowerChar

/-!
## src/types.ts and the Normalizer options
-/

/-- `Required<NormalizerOptions>`, the resolved options record. -/
structure NormalizerOptions where
  defaultCountryCode : Str
  hashAddressFields : Bool
deriving DecidableEq

/-- The `Normalizer` constructor: apply the defaults `'1'` and `false`
to the optional fields (src/Normalizer.ts lines 25-30). -/
def mkOptions (dcc : Option Str) (haf : Option Bool) : NormalizerOptions :=
  ⟨dcc.getD ['1'], haf.getD false⟩

/-- `RawUserData`: every field optional; `traits` is an opaque
passthrough object (its shape never inspected), modelled by a token. -/
structure RawUserData where
  email : Option Str := none
  phone : Option Str := none
  first_name : Option Str := none
  last_name : Option Str := none
  gender : Option Str := none
  date_of_birth : Option Str := none
  external_id : Option Str := none
  city : Option Str := none
  state : Option Str := none
  zip_code : Option Str := none
  country : Option Str := none
  ip_address : Option Str := none
  user_agent : Option Str := none
  subscription_id : Option Str := none
  lead_id : Option Str := none
  anonymous_id : Option Str := none
  traits : Option Nat := none
deriving DecidableEq

/-- `NormalizedUserData` (the `Sha256Hash` brand is a compile-time-only
distinction on strings, erased here). -/
structure NormalizedUserData where
  email : Option Str := none
  phone : Option Str := none
  first_name : Option Str := none
  last_name : Option Str := none
  gender : Option Str := none
  date_of_birth : Option Str := none
  external_id : Option Str := none
  city : Option Str := none
  state : Option Str := none
  zip_code : Option Str := none
  country : Option Str := none
  ip_address : Option Str := none
  user_agent : Option Str := none
  subscription_id : Option Str := none
  lead_id : Option Str := none
  anonymous_id : Option Str := none
  traits : Option Nat := none
deriving DecidableEq

/-- The all-absent raw record. -/
def emptyRaw : RawUserData := {}

/-- The all-absent output record. -/
def emptyNormalized : NormalizedUserData := {}

/-!
## src/Normalizer.ts: the nine field normalizers

Each begins with the shared guard `if (!x || typeof x !== 'string')
return null`; over string inputs that guard rejects exactly the empty
string.
-/

/-- `normalizeEmail`: lowercase, trim; reject when no `@` or length
below 5. -/
def normalizeEmail (s : Str) : Option Str :=
  if s = [] then none else
  let normalized := trim (lowerStr s)
  if normalized.contains '@' = false ∨ normalized.length < 5 then none
  else some normalized

/-- The character class kept by `phone.replace(/[^\d+]/g, '')`: decimal
digits and every `+`. -/
def keepPhone (c : Char) : Bool := c.isDigit || c == '+'

/-- `normalizePhone`: strip to `[\d+]`, drop one leading `+`, reject
below 10 remaining characters, prepend the country code at exactly 10,
prepend `+`. -/
def normalizePhone (opts : NormalizerOptions) (s : Str) (cc : Option Str) :
    Option Str :=
  if s = [] then none else
  let code := cc.getD opts.defaultCountryCode
  let digits0 := s.filter keepPhone
  let digits := if digits0.head? = some '+' then digits0.tail else digits0
  if digits.length < 10 then none
  else some ('+' :: (if digits.length = 10 then code ++ digits else digits))

/-- `normalizeName`: lowercase, trim, collapse whitespace runs; reject
the empty result. -/
def normalizeName (s : Str) : Option Str :=
  if s = [] then none else
  let normalized := collapse (trim (lowerStr s))
  if normalized = [] then none else some normalized

/-- `normalizeGender`: `m`/`male` to `m`, `f`/`female` to `f`. -/
def normalizeGender (s : Str) : Option Str :=
  if s = [] then none else
  let g := trim (lowerStr s)
  if g = ['m'] ∨ g = ['m', 'a', 'l', 'e'] then some ['m']
  else if g = ['f'] ∨ g = ['f', 'e', 'm', 'a', 'l', 'e'] then some ['f']
  else none

/-- The characters removed by `dob.replace(/[-\/\.]/g, '')`. -/
def keepDob (c : Char) : Bool := !(c == '-' || c == '/' || c == '.')

/-- `normalizeDateOfBirth`: remove `-`, `/`, `.`; accept exactly when
the regular expression `^\d{8}$` matches the remainder. -/
def normalizeDateOfBirth (s : Str) : Option Str :=
  if s = [] then none else
  let cleaned := s.filter keepDob
  if cleaned.length = 8 && cleaned.all Char.isDigit then some cleaned else none

/-- `normalizeCity`: lowercase, trim; reject the empty result. -/
def normalizeCity (s : Str) : Option Str :=
  if s = [] then none else
  let normalized := trim (lowerStr s)
  if normalized = [] then none else some normalized

/-- `normalizeState`: lowercase, trim; reject the empty result. -/
def normalizeState (s : Str) : Option Str :=
  if s = [] then none else
  let normalized := trim (lowerStr s)
  if normalized = [] then none else some normalized

/-- `normalizeZipCode`: lowercase, trim, remove all whitespace; reject
the empty result. -/
def normalizeZipCode (s : Str) : Option Str :=
  if s = [] then none else
  let normalized := removeAllWs (trim (lowerStr s))
  if normalized = [] then none else some normalized

/-- `normalizeCountry`: lowercase, trim; reject unless exactly 2
characters remain. -/
def normalizeCountry (s : Str) : Option Str :=
  if s = [] then none else
  let normalized := trim (lowerStr s)
  if normalized.length = 2 then some normalized else none

/-!
## src/Normalizer.ts: the hash methods and the batch orchestrator
-/

/-- The pattern `normalized ? sha256(normalized) : null` shared by the
hash methods. -/
def thenHash (o : Option Str) : Option Str :=
  match o with
  | none => none
  | some v => if v = [] then none else some (sha256 v)

/-- `hashEmail`. -/
def hashEmail (s : Str) : Option Str := thenHash (normalizeEmail s)

/-- `hashPhone`. -/
def hashPhone (opts : NormalizerOptions) (s : Str) (cc : Option Str) :
    Option Str :=
  thenHash (normalizePhone opts s cc)

/-- `hashName`. -/
def hashName (s : Str) : Option Str := thenHash (normalizeName s)

/-- `hashGender`. -/
def hashGender (s : Str) : Option Str := thenHash (normalizeGender s)

/-- `hashDateOfBirth`. -/
def hashDateOfBirth (s : Str) : Option Str := thenHash (normalizeDateOfBirth s)

/-- `hashCity`. -/
def hashCity (s : Str) : Option Str := thenHash (normalizeCity s)

/-- `hashState`. -/
def hashState (s : Str) : Option Str := thenHash (normalizeState s)

/-- `hashZipCode`. -/
def hashZipCode (s : Str) : Option Str := thenHash (normalizeZipCode s)

/-- `hashCountry`. -/
def hashCountry (s : Str) : Option Str := thenHash (normalizeCountry s)

/-- `hashExternalId`: trim only, then digest — no other normalization
(src/Normalizer.ts lines 217-220). -/
def hashExternalId (s : Str) : Option Str :=
  if s = [] then none else some (sha256 (trim s))

/-- JavaScript truthiness of an optional string field: present and
non-empty. -/
def truthyStr (v : Option Str) : Bool :=
  match v with
  | none => false
  | some s => !s.isEmpty

/-- The `if (raw.x) { const h = f(raw.x); if (h) result.x = h; }`
pattern of the batch orchestrator: run `f` only on a truthy-present
field, keep a truthy result. -/
def whenTruthy (v : Option Str) (f : Str → Option Str) : Option Str :=
  match v with
  | none => none
  | some s => if s = [] then none else f s

/-- The batch `normalize` (src/Normalizer.ts lines 259-335).  Each
output field depends only on the matching input field and the options,
so the sequential field assignments are one record literal. -/
def normalize (opts : NormalizerOptions) (raw : RawUserData) :
    NormalizedUserData :=
  { email := whenTruthy raw.email hashEmail
    phone := whenTruthy raw.phone (fun s => hashPhone opts s none)
    first_name := whenTruthy raw.first_name hashName
    last_name := whenTruthy raw.last_name hashName
    gender := whenTruthy raw.gender hashGender
    date_of_birth := whenTruthy raw.date_of_birth hashDateOfBirth
    external_id := whenTruthy raw.external_id hashExternalId
    city := whenTruthy raw.city
      (fun s => if opts.hashAddressFields then hashCity s else some s)
    state := whenTruthy raw.state
      (fun s => if opts.hashAddressFields then hashState s else some s)
    zip_code := whenTruthy raw.zip_code
      (fun s => if opts.hashAddressFields then hashZipCode s else some s)
    country := whenTruthy raw.country
      (fun s => if opts.hashAddressFields then hashCountry s else some s)
    ip_address := whenTruthy raw.ip_address some
    user_agent := whenTruthy raw.user_agent some
    subscription_id := whenTruthy raw.subscription_id some
    lead_id := whenTruthy raw.lead_id some
    anonymous_id := whenTruthy raw.anonymous_id some
    traits := raw.traits }

/-!
## Derived definitions used only to state claims
-/

/-- The keys present in an output record (field order of the source). -/
def keyIf (b : Bool) (name : String) : List String := if b then [name] else []

/-- The key set of the output record. -/
def outputKeys (r : NormalizedUserData) : List String :=
  keyIf r.email.isSome "email" ++ keyIf r.phone.isSome "phone"
    ++ keyIf r.first_name.isSome "first_name"
    ++ keyIf r.last_name.isSome "last_name"
    ++ keyIf r.gender.isSome "gender"
    ++ keyIf r.date_of_birth.isSome "date_of_birth"
    ++ keyIf r.external_id.isSome "external_id"
    ++ keyIf r.city.isSome "city" ++ keyIf r.state.isSome "state"
    ++ keyIf r.zip_code.isSome "zip_code" ++ keyIf r.country.isSome "country"
    ++ keyIf r.ip_address.isSome "ip_address"
    ++ keyIf r.user_agent.isSome "user_agent"
    ++ keyIf r.subscription_id.isSome "subscription_id"
    ++ keyIf r.lead_id.isSome "lead_id"
    ++ keyIf r.anonymous_id.isSome "anonymous_id"
    ++ keyIf r.traits.isSome "traits"

/-- The truthy-present keys of a raw record (an object field such as
`traits` is truthy whenever present). -/
def truthyKeys (r : RawUserData) : List String :=
  keyIf (truthyStr r.email) "email" ++ keyIf (truthyStr r.phone) "phone"
    ++ keyIf (truthyStr r.first_name) "first_name"
    ++ keyIf (truthyStr r.last_name) "last_name"
    ++ keyIf (truthyStr r.gender) "gender"
    ++ keyIf (truthyStr r.date_of_birth) "date_of_birth"
    ++ keyIf (truthyStr r.external_id) "external_id"
    ++ keyIf (truthyStr r.city) "city" ++ keyIf (truthyStr r.state) "state"
    ++ keyIf (truthyStr r.zip_code) "zip_code"
    ++ keyIf (truthyStr r.country) "country"
    ++ keyIf (truthyStr r.ip_address) "ip_address"
    ++ keyIf (truthyStr r.user_agent) "user_agent"
    ++ keyIf (truthyStr r.subscription_id) "subscription_id"
    ++ keyIf (truthyStr r.lead_id) "lead_id"
    ++ keyIf (truthyStr r.anonymous_id) "anonymous_id"
    ++ keyIf r.traits.isSome "traits"

/-- The result of stripping a phone input: keep `[\d+]`, drop one
leading `+` (the intermediate value of `normalizePhone`). -/
def phoneStrip (s : Str) : Str :=
  let digits0 := s.filter keepPhone
  if digits0.head? = some '+' then digits0.tail else digits0

/-- A second reading of the phone rule, written from the amended spec
sentence rather than from the source: keep digit and plus characters,
drop one leading plus by pattern matching, then gate on the remaining
length. -/
def phoneSpec (code : Str) (s : Str) : Option Str :=
  let kept := s.filter (fun c => c == '+' || c.isDigit)
  let rest := if kept.take 1 = ['+'] then kept.drop 1 else kept
  if rest.length < 10 then none
  else if rest.length = 10 then some ('+' :: (code ++ rest))
  else some ('+' :: rest)

/-- A second reading of the date-of-birth rule, written from the spec
sentence: remove hyphen, slash and period, require exactly 8 remaining
characters, all decimal digits. -/
def dobSpec (s : Str) : Option Str :=
  let remaining := s.filter (fun c => decide (c ≠ '-' ∧ c ≠ '/' ∧ c ≠ '.'))
  if remaining.length = 8 ∧ remaining.all Char.isDigit = true then
    some remaining
  else none

/-!
## Helper lemmas about the string primitives
-/

theorem head?_dropWhile_not {p : Char → Bool} {l : List Char} {c : Char}
    (h : (l.dropWhile p).head? = some c) : p c = false := by
  induction l with
  | nil => simp [List.dropWhile] at h
  | cons x xs ih =>
    rw [List.dropWhile_cons] at h
    by_cases hx : p x
    · rw [if_pos hx] at h; exact ih h
    · rw [if_neg hx] at h
      simp only [List.head?_cons, Option.some.injEq] at h
      subst h; simpa using hx

theorem dropWhile_eq_self_of_head {p : Char → Bool} {l : List Char}
    (h : ∀ c, l.head? = some c → p c = false) : l.dropWhile p = l := by
  cases l with
  | nil => rfl
  | cons x xs =>
    rw [List.dropWhile_cons, if_neg]
    simp [h x rfl]

theorem getLast?_dropWhile_of_ne_nil {p : Char → Bool} {l : List Char}
    (h : l.dropWhile p ≠ []) : (l.dropWhile p).getLast? = l.getLast? := by
  obtain ⟨t, ht⟩ := List.dropWhile_suffix (l := l) p
  conv_rhs => rw [← ht]
  rw [List.getLast?_append_of_ne_nil _ h]

theorem trim_head_not_ws {l : Str} {c : Char}
    (h : (trim l).head? = some c) : isWsChar c = false := by
  unfold trim at h
  rw [List.head?_reverse] at h
  by_cases hne : ((l.dropWhile isWsChar).reverse.dropWhile isWsChar) = []
  · rw [hne] at h; simp at h
  · rw [getLast?_dropWhile_of_ne_nil hne, List.getLast?_reverse] at h
    exact head?_dropWhile_not h

theorem trim_getLast_not_ws {l : Str} {c : Char}
    (h : (trim l).getLast? = some c) : isWsChar c = false := by
  unfold trim at h
  rw [List.getLast?_reverse] at h
  exact head?_dropWhile_not h

theorem trim_eq_self {l : Str}
    (h1 : ∀ c, l.head? = some c → isWsChar c = false)
    (h2 : ∀ c, l.getLast? = some c → isWsChar c = false) : trim l = l := by
  unfold trim
  rw [dropWhile_eq_self_of_head h1, dropWhile_eq_self_of_head, List.reverse_reverse]
  intro c hc
  rw [List.head?_reverse] at hc
  exact h2 c hc

theorem trim_idem (l : Str) : trim (trim l) = trim l :=
  trim_eq_self (fun _ h => trim_head_not_ws h) (fun _ h => trim_getLast_not_ws h)

theorem mem_of_mem_trim {c : Char} {l : Str} (h : c ∈ trim l) : c ∈ l := by
  unfold trim at h
  rw [List.mem_reverse] at h
  have h2 := (List.dropWhile_sublist isWsChar).subset h
  rw [List.mem_reverse] at h2
  exact (List.dropWhile_sublist isWsChar).subset h2

theorem toLower_eq (c : Char) :
    Char.toLower c =
      if c.toNat ≥ 65 ∧ c.toNat ≤ 90 then Char.ofNat (c.toNat + 32) else c := rfl

theorem ofNat_toNat_shift :
    ∀ n, n < 91 → 65 ≤ n → (Char.ofNat (n + 32)).toNat = n + 32 := by decide

theorem toLower_toLower (c : Char) : (Char.toLower c).toLower = Char.toLower c := by
  rw [toLower_eq c]
  by_cases h : c.toNat ≥ 65 ∧ c.toNat ≤ 90
  · rw [if_pos h, toLower_eq, if_neg]
    rw [ofNat_toNat_shift c.toNat (by omega) (by omega)]
    omega
  · rw [if_neg h, toLower_eq, if_neg h]

theorem lowerStr_fixed {l : Str} (h : ∀ c ∈ l, Char.toLower c = c) :
    lowerStr l = l := by
  unfold lowerStr
  induction l with
  | nil => rfl
  | cons x xs ih =>
    rw [List.map_cons, h x (by simp), ih]
    intro c hc
    exact h c (by simp [hc])

theorem toLower_fixed_of_mem_lowerStr {c : Char} {s : Str}
    (h : c ∈ lowerStr s) : Char.toLower c = c := by
  unfold lowerStr at h
  obtain ⟨a, _, rfl⟩ := List.mem_map.mp h
  exact toLower_toLower a

theorem collapse_cons_ws {c : Char} {cs : Str} (h : isWsChar c = true) :
    collapse (c :: cs) = ' ' :: collapse (cs.dropWhile isWsChar) := by
  rw [collapse, if_pos h]

theorem collapse_cons_not_ws {c : Char} {cs : Str} (h : isWsChar c = false) :
    collapse (c :: cs) = c :: collapse cs := by
  rw [collapse, if_neg (by simp [h])]

theorem head?_collapse {l : Str} {c : Char} (hh : l.head? = some c)
    (hc : isWsChar c = false) : (collapse l).head? = some c := by
  cases l with
  | nil => simp at hh
  | cons x xs =>
    simp only [List.head?_cons, Option.some.injEq] at hh
    subst hh
    rw [collapse_cons_not_ws hc]
    rfl

theorem mem_collapse {l : Str} : ∀ c ∈ collapse l, c ∈ l ∨ c = ' ' := by
  induction l using collapse.induct with
  | case1 => intro c hc; simp [collapse] at hc
  | case2 x xs hws ih =>
    intro c hc
    rw [collapse_cons_ws hws] at hc
    rcases List.mem_cons.mp hc with h | h
    · right; exact h
    · rcases ih c h with h2 | h2
      · left
        exact List.mem_cons_of_mem x ((List.dropWhile_sublist isWsChar).subset h2)
      · right; exact h2
  | case3 x xs hws ih =>
    intro c hc
    rw [collapse_cons_not_ws (by simpa using hws)] at hc
    rcases List.mem_cons.mp hc with h | h
    · left; simp [h]
    · rcases ih c h with h2 | h2
      · left; exact List.mem_cons_of_mem x h2
      · right; exact h2

theorem getLast?_cons_of_getLast? {a c : Char} {l : Str}
    (h : l.getLast? = some c) : (a :: l).getLast? = some c := by
  cases l with
  | nil => simp at h
  | cons y ys => exact h

theorem getLast?_collapse {l : Str} {c : Char} (hh : l.getLast? = some c)
    (hc : isWsChar c = false) : (collapse l).getLast? = some c := by
  induction l using collapse.induct with
  | case1 => simp at hh
  | case2 x xs hws ih =>
    rw [collapse_cons_ws hws]
    cases xs with
    | nil =>
      simp only [List.getLast?_singleton, Option.some.injEq] at hh
      rw [hh] at hws
      rw [hws] at hc
      simp at hc
    | cons y ys =>
      have hxs : (y :: ys).getLast? = some c := hh
      have hdne : (y :: ys).dropWhile isWsChar ≠ [] := by
        intro hnil
        have hall := List.dropWhile_eq_nil_iff.mp hnil
        have hmem : c ∈ y :: ys := List.mem_of_mem_getLast? hxs
        have := hall c hmem
        rw [hc] at this
        exact Bool.false_ne_true this
      have hdl : ((y :: ys).dropWhile isWsChar).getLast? = some c := by
        rw [getLast?_dropWhile_of_ne_nil hdne]; exact hxs
      exact getLast?_cons_of_getLast? (ih hdl)
  | case3 x xs hws ih =>
    have hws' : isWsChar x = false := by simpa using hws
    rw [collapse_cons_not_ws hws']
    cases xs with
    | nil =>
      simp only [List.getLast?_singleton, Option.some.injEq] at hh
      subst hh
      simp [collapse]
    | cons y ys =>
      have hxs : (y :: ys).getLast? = some c := hh
      exact getLast?_cons_of_getLast? (ih hxs)

theorem collapse_idem (l : Str) : collapse (collapse l) = collapse l := by
  induction l using collapse.induct with
  | case1 => simp [collapse]
  | case2 x xs hws ih =>
    rw [collapse_cons_ws hws, collapse_cons_ws (by decide)]
    cases hY : (xs.dropWhile isWsChar) with
    | nil => simp [collapse]
    | cons y ys =>
      have hy : isWsChar y = false := by
        refine head?_dropWhile_not (p := isWsChar) (l := xs) ?_
        rw [hY]; rfl
      have hhead : (collapse (y :: ys)).head? = some y :=
        head?_collapse rfl hy
      have hdrop : (collapse (y :: ys)).dropWhile isWsChar = collapse (y :: ys) := by
        refine dropWhile_eq_self_of_head ?_
        intro c hcc
        rw [hhead] at hcc
        cases hcc
        exact hy
      rw [hY] at ih
      rw [hdrop, ih]
  | case3 x xs hws ih =>
    have hws' : isWsChar x = false := by simpa using hws
    rw [collapse_cons_not_ws hws', collapse_cons_not_ws hws', ih]

/-!
## Idempotence of the field normalizers
-/

theorem lowerStr_trim_lowerStr (s : Str) :
    lowerStr (trim (lowerStr s)) = trim (lowerStr s) :=
  lowerStr_fixed (fun _ hc => toLower_fixed_of_mem_lowerStr (mem_of_mem_trim hc))

theorem normalizeEmail_idem {s n : Str} (h : normalizeEmail s = some n) :
    normalizeEmail n = some n := by
  simp only [normalizeEmail] at h
  split at h
  · exact absurd h (by simp)
  split at h
  · exact absurd h (by simp)
  rename_i hcond
  push_neg at hcond
  obtain ⟨hat, hlen⟩ := hcond
  have hn : n = trim (lowerStr s) := (Option.some.inj h).symm
  have hne : n ≠ [] := by
    intro he
    rw [← hn] at hlen
    rw [he] at hlen
    simp at hlen
  have hlow : lowerStr n = n := by rw [hn]; exact lowerStr_trim_lowerStr s
  have htrim : trim n = n := by
    conv_lhs => rw [hn]
    rw [trim_idem, ← hn]
  have hcn : ¬(n.contains '@' = false ∨ n.length < 5) := by
    rw [hn]
    rintro (hbad | hbad)
    · exact hat hbad
    · omega
  simp only [normalizeEmail]
  rw [if_neg hne, hlow, htrim, if_neg hcn, hn]

theorem normalizeCity_idem {s n : Str} (h : normalizeCity s = some n) :
    normalizeCity n = some n := by
  simp only [normalizeCity] at h
  split at h
  · exact absurd h (by simp)
  split at h
  · exact absurd h (by simp)
  rename_i hne0
  have hn : n = trim (lowerStr s) := (Option.some.inj h).symm
  have hne : n ≠ [] := by rw [hn]; exact hne0
  have hlow : lowerStr n = n := by rw [hn]; exact lowerStr_trim_lowerStr s
  have htrim : trim n = n := by
    conv_lhs => rw [hn]
    rw [trim_idem, ← hn]
  simp only [normalizeCity]
  rw [if_neg hne, hlow, htrim, if_neg hne]

theorem normalizeState_idem {s n : Str} (h : normalizeState s = some n) :
    normalizeState n = some n := by
  simp only [normalizeState] at h
  split at h
  · exact absurd h (by simp)
  split at h
  · exact absurd h (by simp)
  rename_i hne0
  have hn : n = trim (lowerStr s) := (Option.some.inj h).symm
  have hne : n ≠ [] := by rw [hn]; exact hne0
  have hlow : lowerStr n = n := by rw [hn]; exact lowerStr_trim_lowerStr s
  have htrim : trim n = n := by
    conv_lhs => rw [hn]
    rw [trim_idem, ← hn]
  simp only [normalizeState]
  rw [if_neg hne, hlow, htrim, if_neg hne]

theorem normalizeCountry_idem {s n : Str} (h : normalizeCountry s = some n) :
    normalizeCountry n = some n := by
  simp only [normalizeCountry] at h
  split at h
  · exact absurd h (by simp)
  split at h
  case isFalse => exact absurd h (by simp)
  rename_i hlen
  have hn : n = trim (lowerStr s) := (Option.some.inj h).symm
  have hlen' : n.length = 2 := by rw [hn]; exact hlen
  have hne : n ≠ [] := by
    intro he
    rw [he] at hlen'
    simp at hlen'
  have hlow : lowerStr n = n := by rw [hn]; exact lowerStr_trim_lowerStr s
  have htrim : trim n = n := by
    conv_lhs => rw [hn]
    rw [trim_idem, ← hn]
  simp only [normalizeCountry]
  rw [if_neg hne, hlow, htrim, if_pos hlen']

theorem mem_removeAllWs_not_ws {c : Char} {l : Str} (h : c ∈ removeAllWs l) :
    isWsChar c = false := by
  unfold removeAllWs at h
  have := List.of_mem_filter h
  simpa using this

theorem mem_of_mem_removeAllWs {c : Char} {l : Str} (h : c ∈ removeAllWs l) :
    c ∈ l := List.mem_of_mem_filter h

theorem normalizeZipCode_idem {s n : Str} (h : normalizeZipCode s = some n) :
    normalizeZipCode n = some n := by
  simp only [normalizeZipCode] at h
  split at h
  · exact absurd h (by simp)
  split at h
  · exact absurd h (by simp)
  rename_i hne0
  have hn : n = removeAllWs (trim (lowerStr s)) := (Option.some.inj h).symm
  have hne : n ≠ [] := by rw [hn]; exact hne0
  have hmem : ∀ c ∈ n, isWsChar c = false := by
    intro c hc
    rw [hn] at hc
    exact mem_removeAllWs_not_ws hc
  have hlow : lowerStr n = n := by
    refine lowerStr_fixed ?_
    intro c hc
    rw [hn] at hc
    exact toLower_fixed_of_mem_lowerStr
      (mem_of_mem_trim (mem_of_mem_removeAllWs hc))
  have htrim : trim n = n := by
    refine trim_eq_self ?_ ?_
    · intro c hc
      exact hmem c (List.mem_of_mem_head? hc)
    · intro c hc
      exact hmem c (List.mem_of_mem_getLast? hc)
  have hrm : removeAllWs n = n := by
    refine List.filter_eq_self.mpr ?_
    intro c hc
    simpa using hmem c hc
  simp only [normalizeZipCode]
  rw [if_neg hne, hlow, htrim, hrm, if_neg hne]

theorem normalizeGender_idem {s n : Str} (h : normalizeGender s = some n) :
    normalizeGender n = some n := by
  simp only [normalizeGender] at h
  split at h
  · exact absurd h (by simp)
  split at h
  · have hn : n = ['m'] := (Option.some.inj h).symm
    rw [hn]; decide
  split at h
  · have hn : n = ['f'] := (Option.some.inj h).symm
    rw [hn]; decide
  · exact absurd h (by simp)

theorem keepDob_of_digit {c : Char} (h : c.isDigit = true) : keepDob c = true := by
  have h1 : c ≠ '-' := by rintro rfl; simp at h
  have h2 : c ≠ '/' := by rintro rfl; simp at h
  have h3 : c ≠ '.' := by rintro rfl; simp at h
  simp [keepDob, h1, h2, h3]

theorem normalizeDateOfBirth_idem {s n : Str}
    (h : normalizeDateOfBirth s = some n) : normalizeDateOfBirth n = some n := by
  simp only [normalizeDateOfBirth] at h
  split at h
  · exact absurd h (by simp)
  split at h
  case isFalse => exact absurd h (by simp)
  rename_i hcond
  have hn : n = s.filter keepDob := (Option.some.inj h).symm
  rw [← hn] at hcond
  have hlen : n.length = 8 := by
    have := (Bool.and_eq_true _ _).mp hcond
    exact of_decide_eq_true this.1
  have hdig : n.all Char.isDigit = true := ((Bool.and_eq_true _ _).mp hcond).2
  have hne : n ≠ [] := by
    intro he
    rw [he] at hlen
    simp at hlen
  have hfix : n.filter keepDob = n := by
    refine List.filter_eq_self.mpr ?_
    intro c hc
    exact keepDob_of_digit (List.all_eq_true.mp hdig c hc)
  simp only [normalizeDateOfBirth]
  rw [if_neg hne, hfix, if_pos]
  rw [hlen, hdig]
  simp

theorem normalizeName_idem {s n : Str} (h : normalizeName s = some n) :
    normalizeName n = some n := by
  simp only [normalizeName] at h
  split at h
  · exact absurd h (by simp)
  split at h
  · exact absurd h (by simp)
  rename_i hne0
  have hn : n = collapse (trim (lowerStr s)) := (Option.some.inj h).symm
  have hne : n ≠ [] := by rw [hn]; exact hne0
  have htne : trim (lowerStr s) ≠ [] := by
    intro he
    rw [hn, he] at hne
    exact hne (by simp [collapse])
  have hlow : lowerStr n = n := by
    refine lowerStr_fixed ?_
    intro c hc
    rw [hn] at hc
    rcases mem_collapse c hc with hm | hm
    · exact toLower_fixed_of_mem_lowerStr (mem_of_mem_trim hm)
    · rw [hm]; decide
  have htrim : trim n = n := by
    refine trim_eq_self ?_ ?_
    · intro c hc
      cases ht : (trim (lowerStr s)).head? with
      | none => exact absurd (List.head?_eq_none_iff.mp ht) htne
      | some d =>
        have hd := trim_head_not_ws ht
        have := head?_collapse ht hd
        rw [hn, this] at hc
        cases hc
        exact hd
    · intro c hc
      cases ht : (trim (lowerStr s)).getLast? with
      | none => exact absurd (List.getLast?_eq_none_iff.mp ht) htne
      | some d =>
        have hd := trim_getLast_not_ws ht
        have := getLast?_collapse ht hd
        rw [hn, this] at hc
        cases hc
        exact hd
  have hcol : collapse n = n := by
    conv_lhs => rw [hn]
    rw [collapse_idem, ← hn]
  simp only [normalizeName]
  rw [if_neg hne, hlow, htrim, hcol, if_neg hne]

theorem mem_phoneStrip_keep {s : Str} : ∀ c ∈ phoneStrip s, keepPhone c = true := by
  intro c hc
  simp only [phoneStrip] at hc
  split at hc
  · exact List.of_mem_filter ((List.tail_sublist _).subset hc)
  · exact List.of_mem_filter hc

theorem filter_phoneStrip (s : Str) :
    (phoneStrip s).filter keepPhone = phoneStrip s :=
  List.filter_eq_self.mpr mem_phoneStrip_keep

theorem normalizePhone_eq_some {opts : NormalizerOptions} {s : Str}
    {cc : Option Str} {n : Str} (h : normalizePhone opts s cc = some n) :
    10 ≤ (phoneStrip s).length ∧
      n = '+' :: (if (phoneStrip s).length = 10 then
        (cc.getD opts.defaultCountryCode) ++ phoneStrip s else phoneStrip s) := by
  simp only [normalizePhone] at h
  split at h
  · exact absurd h (by simp)
  rw [show (if (s.filter keepPhone).head? = some '+' then (s.filter keepPhone).tail
      else s.filter keepPhone) = phoneStrip s from rfl] at h
  split at h
  case isTrue => exact absurd h (by simp)
  rename_i hlen
  exact ⟨by omega, (Option.some.inj h).symm⟩

theorem normalizePhone_idem {opts : NormalizerOptions} {cc : Option Str}
    {s n : Str}
    (hc : (cc.getD opts.defaultCountryCode).filter keepPhone
        = cc.getD opts.defaultCountryCode)
    (h : normalizePhone opts s cc = some n) : normalizePhone opts n cc = some n := by
  obtain ⟨hlen, hn⟩ := normalizePhone_eq_some h
  have hfilter_t :
      ∀ t : Str, (t = (if (phoneStrip s).length = 10 then
          (cc.getD opts.defaultCountryCode) ++ phoneStrip s else phoneStrip s)) →
        t.filter keepPhone = t := by
    intro t ht
    rw [ht]
    split
    · rw [List.filter_append, hc, filter_phoneStrip]
    · exact filter_phoneStrip s
  set code := cc.getD opts.defaultCountryCode with hcode
  set t := (if (phoneStrip s).length = 10 then code ++ phoneStrip s
    else phoneStrip s) with hts
  have hft : t.filter keepPhone = t := hfilter_t t rfl
  have htlen : 10 ≤ t.length := by
    rw [hts]
    split
    · rename_i h10
      rw [List.length_append, h10]
      omega
    · exact hlen
  have hstrip_n : phoneStrip n = t := by
    simp only [phoneStrip, hn]
    rw [show ('+' :: t).filter keepPhone = '+' :: t.filter keepPhone by
      simp [List.filter_cons, keepPhone]]
    rw [hft]
    simp
  have hlen_cases : t.length = 10 → t = code ++ t := by
    intro h10
    rw [hts] at h10 ⊢
    by_cases hx : (phoneStrip s).length = 10
    · rw [if_pos hx] at h10 ⊢
      rw [List.length_append, hx] at h10
      have : code.length = 0 := by omega
      have hcode_nil : code = [] := List.length_eq_zero.mp this
      rw [hcode_nil]
      simp
    · rw [if_neg hx] at h10
      omega
  simp only [normalizePhone]
  rw [if_neg (by rw [hn]; exact List.cons_ne_nil _ _)]
  rw [show (if (n.filter keepPhone).head? = some '+' then (n.filter keepPhone).tail
      else n.filter keepPhone) = phoneStrip n from rfl]
  rw [hstrip_n, if_neg (by omega)]
  by_cases h10 : t.length = 10
  · rw [if_pos h10, hn, ← hlen_cases h10]
  · rw [if_neg h10, hn]

/-!
## Shape of the rendered digest
-/

theorem wordBE_lt {w : Nat} : ∀ b ∈ wordBE w, b < 256 := by
  intro b hb
  simp only [wordBE, List.mem_cons, List.not_mem_nil, or_false] at hb
  rcases hb with rfl | rfl | rfl | rfl <;> exact Nat.mod_lt _ (by omega)

theorem sha256Digest_length (bytes : List Nat) :
    (sha256Digest bytes).length = 32 := by
  simp [sha256Digest, wordBE]

theorem sha256Digest_lt (bytes : List Nat) :
    ∀ b ∈ sha256Digest bytes, b < 256 := by
  intro b hb
  simp only [sha256Digest, List.mem_append] at hb
  rcases hb with ((((((hb | hb) | hb) | hb) | hb) | hb) | hb) | hb <;>
    exact wordBE_lt b hb

theorem hexDigit_hexLower : ∀ n, n < 16 → isHexLowerChar (hexDigit n) = true := by
  decide

theorem toHex_eq_of_lt16 {n : Nat} (h : n < 16) : toHex n = [hexDigit n] := by
  unfold toHex
  rw [if_pos h]

theorem hexByte_shape {b : Nat} (h : b < 256) :
    (hexByte b).length = 2 ∧ ∀ c ∈ hexByte b, isHexLowerChar c = true := by
  by_cases h16 : b < 16
  · unfold hexByte
    rw [toHex_eq_of_lt16 h16]
    unfold padStart2
    rw [if_pos (by simp)]
    refine ⟨by simp, ?_⟩
    intro c hc
    simp only [List.length_cons, List.length_nil] at hc
    rcases List.mem_cons.mp hc with rfl | hc
    · decide
    · rcases List.mem_cons.mp hc with rfl | hc
      · exact hexDigit_hexLower b h16
      · simp at hc
  · have hdiv : b / 16 < 16 := by
      rw [Nat.div_lt_iff_lt_mul (by omega)]
      omega
    unfold hexByte
    rw [show toHex b = toHex (b / 16) ++ [hexDigit (b % 16)] by
      conv_lhs => rw [toHex]
      rw [if_neg h16]]
    rw [toHex_eq_of_lt16 hdiv]
    unfold padStart2
    rw [if_neg (by simp)]
    refine ⟨by simp, ?_⟩
    intro c hc
    rcases List.mem_cons.mp hc with rfl | hc
    · exact hexDigit_hexLower _ hdiv
    · rcases List.mem_cons.mp hc with rfl | hc
      · exact hexDigit_hexLower _ (Nat.mod_lt _ (by omega))
      · simp at hc

theorem flatten_hexBytes {bs : List Nat} (h : ∀ b ∈ bs, b < 256) :
    ((bs.map hexByte).flatten.length = 2 * bs.length) ∧
      ∀ c ∈ (bs.map hexByte).flatten, isHexLowerChar c = true := by
  induction bs with
  | nil => simp
  | cons x xs ih =>
    have hx := hexByte_shape (h x (by simp))
    have ihs := ih (fun b hb => h b (by simp [hb]))
    constructor
    · simp only [List.map_cons, List.flatten_cons, List.length_append, hx.1,
        ihs.1, List.length_cons]
      ring
    · intro c hc
      simp only [List.map_cons, List.flatten_cons, List.mem_append] at hc
      rcases hc with hc | hc
      · exact hx.2 c hc
      · exact ihs.2 c hc

theorem sha256_shape (s : Str) :
    (sha256 s).length = 64 ∧ ∀ c ∈ sha256 s, isHexLowerChar c = true := by
  unfold sha256
  have := flatten_hexBytes (sha256Digest_lt (utf8Encode s))
  rw [sha256Digest_length] at this
  exact this

/-!
## Helpers for the batch orchestrator
-/

theorem whenTruthy_isSome {v : Option Str} {f : Str → Option Str}
    (h : (whenTruthy v f).isSome = true) : truthyStr v = true := by
  cases v with
  | none => simp [whenTruthy] at h
  | some s =>
    cases s with
    | nil => simp [whenTruthy] at h
    | cons x xs => rfl

theorem keyIf_subset {b1 b2 : Bool} {nm : String} (h : b1 = true → b2 = true) :
    keyIf b1 nm ⊆ keyIf b2 nm := by
  cases b1 with
  | false => intro x hx; simp [keyIf] at hx
  | true =>
    rw [h rfl]
    exact fun x hx => hx

theorem append_subset_append {l1 l2 l1' l2' : List String}
    (h1 : l1 ⊆ l1') (h2 : l2 ⊆ l2') : l1 ++ l2 ⊆ l1' ++ l2' := by
  intro x hx
  rcases List.mem_append.mp hx with h | h
  · exact List.mem_append.mpr (Or.inl (h1 h))
  · exact List.mem_append.mpr (Or.inr (h2 h))

theorem normalize_email_eq (opts : NormalizerOptions) (raw : RawUserData) :
    (normalize opts raw).email = whenTruthy raw.email hashEmail := rfl

theorem normalize_phone_eq (opts : NormalizerOptions) (raw : RawUserData) :
    (normalize opts raw).phone
      = whenTruthy raw.phone (fun s => hashPhone opts s none) := rfl

theorem normalize_first_name_eq (opts : NormalizerOptions) (raw : RawUserData) :
    (normalize opts raw).first_name = whenTruthy raw.first_name hashName := rfl

theorem normalize_last_name_eq (opts : NormalizerOptions) (raw : RawUserData) :
    (normalize opts raw).last_name = whenTruthy raw.last_name hashName := rfl

theorem normalize_gender_eq (opts : NormalizerOptions) (raw : RawUserData) :
    (normalize opts raw).gender = whenTruthy raw.gender hashGender := rfl

theorem normalize_date_of_birth_eq (opts : NormalizerOptions) (raw : RawUserData) :
    (normalize opts raw).date_of_birth
      = whenTruthy raw.date_of_birth hashDateOfBirth := rfl

theorem normalize_external_id_eq (opts : NormalizerOptions) (raw : RawUserData) :
    (normalize opts raw).external_id
      = whenTruthy raw.external_id hashExternalId := rfl

theorem normalize_city_eq (opts : NormalizerOptions) (raw : RawUserData) :
    (normalize opts raw).city = whenTruthy raw.city
      (fun s => if opts.hashAddressFields then hashCity s else some s) := rfl

theorem normalize_state_eq (opts : NormalizerOptions) (raw : RawUserData) :
    (normalize opts raw).state = whenTruthy raw.state
      (fun s => if opts.hashAddressFields then hashState s else some s) := rfl

theorem normalize_zip_code_eq (opts : NormalizerOptions) (raw : RawUserData) :
    (normalize opts raw).zip_code = whenTruthy raw.zip_code
      (fun s => if opts.hashAddressFields then hashZipCode s else some s) := rfl

theorem normalize_country_eq (opts : NormalizerOptions) (raw : RawUserData) :
    (normalize opts raw).country = whenTruthy raw.country
      (fun s => if opts.hashAddressFields then hashCountry s else some s) := rfl

theorem normalize_ip_address_eq (opts : NormalizerOptions) (raw : RawUserData) :
    (normalize opts raw).ip_address = whenTruthy raw.ip_address some := rfl

theorem normalize_user_agent_eq (opts : NormalizerOptions) (raw : RawUserData) :
    (normalize opts raw).user_agent = whenTruthy raw.user_agent some := rfl

theorem normalize_subscription_id_eq (opts : NormalizerOptions) (raw : RawUserData) :
    (normalize opts raw).subscription_id
      = whenTruthy raw.subscription_id some := rfl

theorem normalize_lead_id_eq (opts : NormalizerOptions) (raw : RawUserData) :
    (normalize opts raw).lead_id = whenTruthy raw.lead_id some := rfl

theorem normalize_anonymous_id_eq (opts : NormalizerOptions) (raw : RawUserData) :
    (normalize opts raw).anonymous_id = whenTruthy raw.anonymous_id some := rfl

theorem normalize_traits_eq (opts : NormalizerOptions) (raw : RawUserData) :
    (normalize opts raw).traits = raw.traits := rfl

theorem normalize_keys_subset (opts : NormalizerOptions) (raw : RawUserData) :
    outputKeys (normalize opts raw) ⊆ truthyKeys raw := by
  unfold outputKeys truthyKeys
  rw [normalize_email_eq, normalize_phone_eq, normalize_first_name_eq,
    normalize_last_name_eq, normalize_gender_eq, normalize_date_of_birth_eq,
    normalize_external_id_eq, normalize_city_eq, normalize_state_eq,
    normalize_zip_code_eq, normalize_country_eq, normalize_ip_address_eq,
    normalize_user_agent_eq, normalize_subscription_id_eq,
    normalize_lead_id_eq, normalize_anonymous_id_eq, normalize_traits_eq]
  refine append_subset_append ?_ (keyIf_subset fun h => h)
  refine append_subset_append ?_ (keyIf_subset fun h => whenTruthy_isSome h)
  refine append_subset_append ?_ (keyIf_subset fun h => whenTruthy_isSome h)
  refine append_subset_append ?_ (keyIf_subset fun h => whenTruthy_isSome h)
  refine append_subset_append ?_ (keyIf_subset fun h => whenTruthy_isSome h)
  refine append_subset_append ?_ (keyIf_subset fun h => whenTruthy_isSome h)
  refine append_subset_append ?_ (keyIf_subset fun h => whenTruthy_isSome h)
  refine append_subset_append ?_ (keyIf_subset fun h => whenTruthy_isSome h)
  refine append_subset_append ?_ (keyIf_subset fun h => whenTruthy_isSome h)
  refine append_subset_append ?_ (keyIf_subset fun h => whenTruthy_isSome h)
  refine append_subset_append ?_ (keyIf_subset fun h => whenTruthy_isSome h)
  refine append_subset_append ?_ (keyIf_subset fun h => whenTruthy_isSome h)
  refine append_subset_append ?_ (keyIf_subset fun h => whenTruthy_isSome h)
  refine append_subset_append ?_ (keyIf_subset fun h => whenTruthy_isSome h)
  refine append_subset_append ?_ (keyIf_subset fun h => whenTruthy_isSome h)
  refine append_subset_append ?_ (keyIf_subset fun h => whenTruthy_isSome h)
  exact keyIf_subset fun h => whenTruthy_isSome h

theorem normalizeName_ne_nil {s n : Str} (h : normalizeName s = some n) :
    n ≠ [] := by
  simp only [normalizeName] at h
  split at h
  · simp at h
  split at h
  · simp at h
  rename_i hcn
  rw [Option.some.inj h] at hcn
  exact hcn

/-!
## The claims
-/

/-- Claim C1 (code bug): the claim says that with `hashAddressFields`
false the batch normalize runs the bare field normalizer on each truthy
conditionally-hash field, stores the normalized plain string on success
and omits the field on rejection.  The code instead copies the raw value
verbatim (`result.city = raw.city`), which its own doc example (city
`San Francisco` shown as `san francisco`, "normalized, not hashed by
default") and the types file comment contradict.  This theorem evaluates
the embedding at a failing input: city `"  SF  "` comes back raw even
though the bare normalizer returns `"sf"`, and country `"USA"` is kept
even though `normalizeCountry` rejects it. -/
theorem c1_plaintext_address_not_normalized :
    (normalize (mkOptions none (some false))
        { emptyRaw with
                        city := some ("  SF  ".toList)
                        country := some ("USA".toList) }).city
      = some ("  SF  ".toList)
    ∧ normalizeCity ("  SF  ".toList) = some ("sf".toList)
    ∧ (normalize (mkOptions none (some false))
        { emptyRaw with
                        city := some ("  SF  ".toList)
                        country := some ("USA".toList) }).city
      ≠ some ("sf".toList)
    ∧ (normalize (mkOptions none (some false))
        { emptyRaw with
                        city := some ("  SF  ".toList)
                        country := some ("USA".toList) }).country
      = some ("USA".toList)
    ∧ normalizeCountry ("USA".toList) = none := by
  refine ⟨rfl, by decide, by decide, rfl, by decide⟩

/-- Claim C2 (counterexample): the claim as stated is false.  It says
the digit count below 10 after stripping forces rejection, yet
`"123456789+"` keeps only 9 digits and is still accepted (the stripped
string also retains the `+`, reaching length 10); and it says the result
always carries a single leading `+`, yet `"++1234567890"` normalizes to
a string starting with two `+` characters. -/
theorem c2_phone_rule_counterexample :
    (("123456789+".toList).filter Char.isDigit).length < 10
    ∧ normalizePhone (mkOptions none none) ("123456789+".toList) none
        = some ("+1123456789+".toList)
    ∧ normalizePhone (mkOptions none none) ("++1234567890".toList) none
        = some ("++1234567890".toList)
    ∧ ("++1234567890".toList).take 2 = ['+', '+'] := by
  refine ⟨by decide, by decide, by decide, by decide⟩

/-- Claim C2 (amended): `normalizePhone` keeps every digit and every
`+` character, drops one leading `+` if present, rejects when fewer than
10 characters remain, prepends the country code (explicit argument,
else the configured default) when exactly 10 remain, and prepends `+`
to the remainder; this is proved as an equivalence with `phoneSpec`, a
second definition written from the amended rule. -/
theorem c2_phone_rule_amended (opts : NormalizerOptions) (s : Str)
    (cc : Option Str) :
    normalizePhone opts s cc = phoneSpec (cc.getD opts.defaultCountryCode) s := by
  by_cases hs : s = []
  · subst hs
    rfl
  · simp only [normalizePhone, phoneSpec]
    rw [if_neg hs]
    have hf : s.filter (fun c => c == '+' || c.isDigit) = s.filter keepPhone :=
      List.filter_congr (fun a _ => by simp [keepPhone, Bool.or_comm])
    rw [hf]
    have hrest : (if (s.filter keepPhone).take 1 = ['+']
        then (s.filter keepPhone).drop 1 else s.filter keepPhone)
        = (if (s.filter keepPhone).head? = some '+'
            then (s.filter keepPhone).tail else s.filter keepPhone) := by
      cases hK : s.filter keepPhone with
      | nil => simp
      | cons x t =>
        by_cases hx : x = '+'
        · subst hx
          simp
        · rw [if_neg (by simpa using hx), if_neg (by simpa using hx)]
    rw [hrest]
    split <;>
    · split
      · rfl
      · split <;> rfl

/-- Claim C4 (confirmed): every digest rendered by `sha256` is exactly
64 characters, each in `[a-f0-9]`, so `isSha256` accepts it. -/
theorem c4_digest_shape (x : Str) :
    (sha256 x).length = 64 ∧ isSha256 (sha256 x) = true := by
  obtain ⟨hl, hc⟩ := sha256_shape x
  refine ⟨hl, ?_⟩
  have hall : (sha256 x).all isHexLowerChar = true := List.all_eq_true.mpr hc
  simp [isSha256, hl, hall]

/-- Claim C3 (confirmed): the key set of the batch output is a subset of
the keys truthy-present in the input; the empty record maps to the empty
record; and the record with an invalid email and a too-short phone comes
back with neither `email` nor `phone` present. -/
theorem c3_rejection_yields_omission :
    (∀ (opts : NormalizerOptions) (raw : RawUserData),
        outputKeys (normalize opts raw) ⊆ truthyKeys raw)
    ∧ normalize (mkOptions none none) emptyRaw = emptyNormalized
    ∧ (normalize (mkOptions none none)
        { emptyRaw with
                        email := some ("not-an-email".toList)
                        phone := some ("123".toList) }).email = none
    ∧ (normalize (mkOptions none none)
        { emptyRaw with
                        email := some ("not-an-email".toList)
                        phone := some ("123".toList) }).phone = none := by
  refine ⟨normalize_keys_subset, rfl, by decide, by decide⟩

/-- Claim C5 (counterexample): idempotence fails for the phone
normalizer when the supplied country-code argument contains characters
the strip step removes: with country code `"a1"`, `"5551234567"`
normalizes to `"+a15551234567"`, but renormalizing that result drops the
`a` and yields `"+15551234567"`, a different string. -/
theorem c5_idempotence_counterexample :
    normalizePhone (mkOptions none none) ("5551234567".toList)
        (some ("a1".toList)) = some ("+a15551234567".toList)
    ∧ normalizePhone (mkOptions none none) ("+a15551234567".toList)
        (some ("a1".toList)) = some ("+15551234567".toList)
    ∧ ("+15551234567".toList : Str) ≠ "+a15551234567".toList := by
  refine ⟨by decide, by decide, by decide⟩

/-- Claim C5 (amended): every field normalizer is idempotent on its
successful outputs; for the phone normalizer this additionally requires
that the effective country code (the explicit argument if given,
otherwise the configured default) consist only of characters the strip
step keeps (digits and `+`) — as the default `"1"` does.  Without that
proviso the counterexample applies. -/
theorem c5_normalizers_idempotent :
    (∀ s n : Str, normalizeEmail s = some n → normalizeEmail n = some n)
    ∧ (∀ (opts : NormalizerOptions) (cc : Option Str) (s n : Str),
        (cc.getD opts.defaultCountryCode).filter keepPhone
            = cc.getD opts.defaultCountryCode →
        normalizePhone opts s cc = some n → normalizePhone opts n cc = some n)
    ∧ (∀ s n : Str, normalizeName s = some n → normalizeName n = some n)
    ∧ (∀ s n : Str, normalizeGender s = some n → normalizeGender n = some n)
    ∧ (∀ s n : Str,
        normalizeDateOfBirth s = some n → normalizeDateOfBirth n = some n)
    ∧ (∀ s n : Str, normalizeCity s = some n → normalizeCity n = some n)
    ∧ (∀ s n : Str, normalizeState s = some n → normalizeState n = some n)
    ∧ (∀ s n : Str, normalizeZipCode s = some n → normalizeZipCode n = some n)
    ∧ (∀ s n : Str, normalizeCountry s = some n → normalizeCountry n = some n) :=
  ⟨fun _ _ => normalizeEmail_idem,
   fun _ _ _ _ hc h => normalizePhone_idem hc h,
   fun _ _ => normalizeName_idem,
   fun _ _ => normalizeGender_idem,
   fun _ _ => normalizeDateOfBirth_idem,
   fun _ _ => normalizeCity_idem,
   fun _ _ => normalizeState_idem,
   fun _ _ => normalizeZipCode_idem,
   fun _ _ => normalizeCountry_idem⟩

/-- Claim C6 (confirmed): `hashExternalId` digests the input after only
a whitespace trim — no lowercasing and no format gate — for every
non-empty string. -/
theorem c6_external_id_trim_only (s : Str) (h : s ≠ []) :
    hashExternalId s = some (sha256 (trim s)) := by
  unfold hashExternalId
  rw [if_neg h]

/-- Witness for C6 at a concrete mixed-case input. -/
theorem c6_external_id_trim_only_witness :
    hashExternalId ("  Ext_ID 42  ".toList)
      = some (sha256 (trim ("  Ext_ID 42  ".toList))) :=
  c6_external_id_trim_only ("  Ext_ID 42  ".toList) (by decide)

/-- Claim C7 (confirmed): `normalizeDateOfBirth` only removes `-`, `/`
and `.` and gates on the 8-digit shape — equivalent to `dobSpec`, a
second definition written from the spec sentence — with no calendar
check and no field-order assumption; both cited examples evaluate as
stated. -/
theorem c7_dob_format_only :
    (∀ s : Str, normalizeDateOfBirth s = dobSpec s)
    ∧ normalizeDateOfBirth ("1990-01-15".toList) = some ("19900115".toList)
    ∧ normalizeDateOfBirth ("01/15/1990".toList) = some ("01151990".toList) := by
  refine ⟨?_, by decide, by decide⟩
  intro s
  by_cases hs : s = []
  · subst hs
    decide
  · simp only [normalizeDateOfBirth, dobSpec]
    rw [if_neg hs]
    have hf : s.filter (fun c => decide (c ≠ '-' ∧ c ≠ '/' ∧ c ≠ '.'))
        = s.filter keepDob := by
      refine List.filter_congr ?_
      intro a _
      by_cases h1 : a = '-'
      · subst h1; decide
      by_cases h2 : a = '/'
      · subst h2; decide
      by_cases h3 : a = '.'
      · subst h3; decide
      simp [keepDob, h1, h2, h3]
    rw [hf]
    have hc : ((s.filter keepDob).length = 8
          ∧ (s.filter keepDob).all Char.isDigit = true)
        ↔ (decide ((s.filter keepDob).length = 8)
            && (s.filter keepDob).all Char.isDigit) = true := by
      rw [Bool.and_eq_true, decide_eq_true_eq]
    split
    · rename_i hgood
      rw [if_pos (hc.mpr hgood)]
    · rename_i hbad
      rw [if_neg (fun hp => hbad (hc.mp hp))]

/-- Claim C8 (confirmed): `first_name` and `last_name` go through the
same `hashName` with no field tag, so feeding the same accepted value to
both yields the same digest in both output fields (and the fields are
present). -/
theorem c8_name_fields_share_hash (opts : NormalizerOptions) (v : Str)
    (hv : (normalizeName v).isSome = true) :
    (normalize opts { emptyRaw with
        first_name := some v
        last_name := some v }).first_name
      = (normalize opts { emptyRaw with
          first_name := some v
          last_name := some v }).last_name
    ∧ (normalize opts { emptyRaw with
        first_name := some v
        last_name := some v }).first_name.isSome = true := by
  obtain ⟨n, hn⟩ := Option.isSome_iff_exists.mp hv
  have hvne : v ≠ [] := by
    intro he
    rw [he] at hn
    simp [normalizeName] at hn
  refine ⟨rfl, ?_⟩
  rw [normalize_first_name_eq]
  show (whenTruthy (some v) hashName).isSome = true
  simp only [whenTruthy]
  rw [if_neg hvne]
  unfold hashName thenHash
  rw [hn]
  show (if n = [] then none else some (sha256 n)).isSome = true
  rw [if_neg (normalizeName_ne_nil hn)]
  rfl

/-- Witness for C8 at the concrete name `jon`. -/
theorem c8_name_fields_share_hash_witness :
    (normalizeName ['j', 'o', 'n']).isSome = true
    ∧ ((normalize (mkOptions none none)
          { emptyRaw with
              first_name := some ['j', 'o', 'n']
              last_name := some ['j', 'o', 'n'] }).first_name
        = (normalize (mkOptions none none)
            { emptyRaw with
                first_name := some ['j', 'o', 'n']
                last_name := some ['j', 'o', 'n'] }).last_name
      ∧ (normalize (mkOptions none none)
          { emptyRaw with
              first_name := some ['j', 'o', 'n']
              last_name := some ['j', 'o', 'n'] }).first_name.isSome = true) := by
  have hcol : collapse ['j', 'o', 'n'] = ['j', 'o', 'n'] := by
    rw [collapse_cons_not_ws (by decide), collapse_cons_not_ws (by decide),
      collapse_cons_not_ws (by decide)]
    simp [collapse]
  have hv : (normalizeName ['j', 'o', 'n']).isSome = true := by
    simp only [normalizeName]
    rw [show lowerStr ['j', 'o', 'n'] = ['j', 'o', 'n'] from by decide]
    rw [show trim ['j', 'o', 'n'] = ['j', 'o', 'n'] from by decide]
    rw [hcol]
    decide
  exact ⟨hv,
    c8_name_fields_share_hash (mkOptions none none) ['j', 'o', 'n'] hv⟩

/-- Claim C9 (confirmed): whenever stripping leaves exactly 10
characters, `normalizePhone` prepends the supplied country-code argument
unchecked — any string, including empty or non-digit ones — between the
leading `+` and the stripped remainder. -/
theorem c9_country_code_unvalidated (opts : NormalizerOptions) (s c : Str)
    (h10 : (phoneStrip s).length = 10) :
    normalizePhone opts s (some c) = some ('+' :: (c ++ phoneStrip s)) := by
  have hsne : s ≠ [] := by
    intro he
    rw [he] at h10
    simp [phoneStrip] at h10
  simp only [normalizePhone]
  rw [if_neg hsne]
  rw [show (if (s.filter keepPhone).head? = some '+'
      then (s.filter keepPhone).tail else s.filter keepPhone)
      = phoneStrip s from rfl]
  rw [if_neg (by omega), if_pos h10]
  rfl

/-- Witness for C9 with the non-digit country code `"xy"`. -/
theorem c9_country_code_unvalidated_witness :
    (phoneStrip ("5551234567".toList)).length = 10
    ∧ normalizePhone (mkOptions none none) ("5551234567".toList)
        (some ("xy".toList))
      = some ('+' :: ("xy".toList ++ phoneStrip ("5551234567".toList))) :=
  ⟨by decide,
   c9_country_code_unvalidated (mkOptions none none) ("5551234567".toList)
     ("xy".toList) (by decide)⟩

/-- Claim C10 (confirmed): the batch orchestrator calls the phone hash
with no per-call country code, so the output `phone` field equals
`hashPhone` of the raw phone under the configured default country code
alone. -/
theorem c10_no_per_record_country_code (opts : NormalizerOptions)
    (raw : RawUserData) (s : Str) (hp : raw.phone = some s) (hs : s ≠ []) :
    (normalize opts raw).phone = hashPhone opts s none := by
  rw [normalize_phone_eq, hp]
  simp only [whenTruthy]
  rw [if_neg hs]

/-- Witness for C10 at a concrete record. -/
theorem c10_no_per_record_country_code_witness :
    ({ emptyRaw with phone := some ("5551234567".toList) }
        : RawUserData).phone = some ("5551234567".toList)
    ∧ ("5551234567".toList : Str) ≠ []
    ∧ (normalize (mkOptions none none)
        { emptyRaw with phone := some ("5551234567".toList) }).phone
      = hashPhone (mkOptions none none) ("5551234567".toList) none :=
  ⟨rfl, by decide,
   c10_no_per_record_country_code (mkOptions none none)
     { emptyRaw with phone := some ("5551234567".toList) }
     ("5551234567".toList) rfl (by decide)⟩

end PII
